import Mathlib

/-
  Verification development for the watchman C++ client connection
  (src/cppclient/WatchmanConnection.h).  The repository ships only the
  interface header; inline members (isDead, forceEOF, the destructor-guard
  reference counting) are translated directly from the header, while the
  bodies of run/close/connect/the decode loop are modelled from the design
  specification, as marked on each definition.
-/

namespace Watchman

/-- Structured protocol value, a shallow model of the dynamically typed
payload type (folly::dynamic) used for commands and responses. -/
inductive Wdyn where
  | null : Wdyn
  | bool (b : Bool) : Wdyn
  | int (n : Int) : Wdyn
  | str (s : String) : Wdyn
  | arr (xs : List Wdyn) : Wdyn
  | obj (fields : List (String × Wdyn)) : Wdyn

/-- Error taxonomy of the connection, following the spec: dead-connection
error, cancellation on close, transport failure (connect/read/write error or
end-of-stream), malformed-PDU decode failure, an application-level error
response (WatchmanResponseError, carrying the full decoded payload), and the
state-machine violation for a second connect call. -/
inductive WatchmanError where
  | connectionClosed : WatchmanError
  | cancellation : WatchmanError
  | transport : WatchmanError
  | decodeFailure : WatchmanError
  | responseError (response : Wdyn) : WatchmanError
  | stateViolation : WatchmanError

/-- Result of one streaming decode attempt of the external codec:
one complete PDU together with the number of bytes it consumed, or a report
that the buffer is incomplete, or that the bytes are malformed. -/
inductive DecodeResult where
  | pdu (v : Wdyn) (consumed : Nat) : DecodeResult
  | incomplete : DecodeResult
  | malformed : DecodeResult

/-- The external serialization codec, kept abstract: the connection only
uses its streaming decode operation. -/
structure Codec where
  decodeOne : List Nat → DecodeResult

/-- The codec reports an empty buffer as incomplete. -/
def Codec.EmptyIncomplete (c : Codec) : Prop :=
  c.decodeOne [] = DecodeResult.incomplete

/-- A PDU extracted by the codec consumed at least one byte and no more
than the buffer holds. -/
def Codec.ConsumesValid (c : Codec) : Prop :=
  ∀ b v n, c.decodeOne b = DecodeResult.pdu v n → 0 < n ∧ n ≤ b.length

/-- Once a complete PDU is extracted from a buffer, appending further bytes
does not change the extracted value nor the number of bytes consumed. -/
def Codec.PrefixStable (c : Codec) : Prop :=
  ∀ b ext v n, c.decodeOne b = DecodeResult.pdu v n →
    c.decodeOne (b ++ ext) = DecodeResult.pdu v n

/-- Bytes recognised as malformed stay malformed when further bytes are
appended. -/
def Codec.MalformedStable (c : Codec) : Prop :=
  ∀ b ext, c.decodeOne b = DecodeResult.malformed →
    c.decodeOne (b ++ ext) = DecodeResult.malformed

/-- A streaming-coherent codec: the four properties a length-framed
streaming decoder provides. -/
def Codec.Streaming (c : Codec) : Prop :=
  c.EmptyIncomplete ∧ c.ConsumesValid ∧ c.PrefixStable ∧ c.MalformedStable

/-- Result of a full decode pass over the inbound buffer: the PDUs split
off the front in order, the retained remainder, and whether the pass ended
on malformed bytes. -/
structure ExtractResult where
  pdus : List Wdyn
  rest : List Nat
  malformed : Bool

/-- Modelled from the spec: the decode loop of decodeNextResponse and
splitNextPdu (bodies not in the header).  It repeatedly splits exactly one
complete PDU off the front of the buffer, stops when the codec reports an
incomplete buffer, and reports malformed bytes.  The fuel argument bounds
the number of iterations; a fuel of the buffer length is always enough for
a codec whose PDUs consume at least one byte. -/
def extractLoop (c : Codec) : Nat → List Nat → ExtractResult
  | 0, buf => ⟨[], buf, false⟩
  | fuel + 1, buf =>
    match c.decodeOne buf with
    | DecodeResult.pdu v n =>
      let r := extractLoop c fuel (buf.drop n)
      ⟨v :: r.pdus, r.rest, r.malformed⟩
    | DecodeResult.incomplete => ⟨[], buf, false⟩
    | DecodeResult.malformed => ⟨[], buf, true⟩

/-- One full decode pass over a buffer, with enough fuel. -/
def extractPdus (c : Codec) (buf : List Nat) : ExtractResult :=
  extractLoop c buf.length buf

/-- State of the PDU framer in isolation: the accumulated inbound buffer,
the PDUs emitted so far in order, and whether the framer hit malformed
bytes (after which the connection is broken and reads stop). -/
structure FramerState where
  buf : List Nat
  emitted : List Wdyn
  broken : Bool

/-- Modelled from the spec: one read-availability event of the framer.
Incoming bytes are appended to the buffer, every complete PDU is split off
and emitted, and on malformed bytes the framer becomes broken and the
malformed remainder is discarded.  A broken framer ignores further reads. -/
def feedFramer (c : Codec) (st : FramerState) (chunk : List Nat) : FramerState :=
  if st.broken then st
  else
    let r := extractPdus c (st.buf ++ chunk)
    if r.malformed then ⟨[], st.emitted ++ r.pdus, true⟩
    else ⟨r.rest, st.emitted ++ r.pdus, false⟩

/-- A sequence of read-availability events fed to the framer. -/
def feedFramerAll (c : Codec) (st : FramerState) (chunks : List (List Nat)) : FramerState :=
  chunks.foldl (feedFramer c) st

/-- The framer state before any bytes arrived. -/
def initFramer : FramerState := ⟨[], [], false⟩

/-- A byte stream delivered one byte per read event. -/
def byteChunks (stream : List Nat) : List (List Nat) :=
  stream.map (fun b => [b])

/-- A command queued up by the run() function (struct QueuedCommand of the
header): the command payload together with the identity of the promise the
caller observes as a future.  Promises are identified by a number; their
fulfillment is recorded in the connection's fulfillment log. -/
structure QueuedCommand where
  id : Nat
  cmd : Wdyn

/-- State of one WatchmanConnection.  The fields broken and closing are the
flags of the header; commandQ and bufQ model the deque of queued commands
and the inbound buffer; connectCalled/handshakeDone/connectResult model the
connect handshake; fulfilled is the log of promise fulfillments in the order
they happen (promise id paired with success value or error); writes is the
log of command payloads handed to the transport; writeInFlight and
sentCount model the one-outstanding-write send loop; sinkLog and
hasCallback model the optional unsolicited-notification callback. -/
structure WatchmanConnection where
  broken : Bool
  closing : Bool
  connectCalled : Bool
  handshakeDone : Bool
  connectResult : Option (Except WatchmanError Wdyn)
  versionCmd : Option Wdyn
  commandQ : List QueuedCommand
  bufQ : List Nat
  fulfilled : List (Nat × Except WatchmanError Wdyn)
  nextId : Nat
  writes : List Wdyn
  writeInFlight : Bool
  sentCount : Nat
  sinkLog : List Wdyn
  hasCallback : Bool

/-- A freshly constructed connection, before connect is called. -/
def initConn (hasCallback : Bool) : WatchmanConnection :=
  ⟨false, false, false, false, none, none, [], [], [], 0, [], false, 0, [], hasCallback⟩

/-- Translated from the header (lines 72 to 74): the connection is dead when
it has been closed or is in a broken state. -/
def isDead (conn : WatchmanConnection) : Bool :=
  conn.closing || conn.broken

/-- True when the value is an object carrying the error key, which marks an
application-level error reported by the service inside a well-formed
response. -/
def hasErrorKey : Wdyn → Bool
  | Wdyn.obj fields => fields.any (fun kv => kv.1 == "error")
  | _ => false

/-- Modelled from the spec: body of watchmanResponseToTry is not in the
header.  A decoded value that the service marked as an application-level
error becomes a protocol-error result carrying the complete response
payload (WatchmanResponseError); any other value is a success. -/
def watchmanResponseToTry (value : Wdyn) : Except WatchmanError Wdyn :=
  if hasErrorKey value then Except.error (WatchmanError.responseError value) else Except.ok value

/-- Modelled from the spec: queue draining of failQueuedCommands (body not
in the header).  Every pending command still in the queue is completed, in
original order, with the same failure reason; the queue is then emptied. -/
def failQueuedCommands (conn : WatchmanConnection) (ex : WatchmanError) : WatchmanConnection :=
  { conn with
      commandQ := [],
      sentCount := 0,
      fulfilled := conn.fulfilled ++ conn.commandQ.map (fun qc => (qc.id, Except.error ex)) }

/-- Modelled from the spec: the send loop of sendCommand (body not in the
header).  If no write is in flight, the connection is not dead, and the
queue still holds a command that has not been written, that command is
serialized and handed to the transport; only one write is outstanding at a
time. -/
def maybeSendNext (conn : WatchmanConnection) : WatchmanConnection :=
  if conn.writeInFlight then conn
  else if isDead conn then conn
  else
    match conn.commandQ.drop conn.sentCount with
    | [] => conn
    | qc :: _ =>
      { conn with
          writes := conn.writes ++ [qc.cmd],
          sentCount := conn.sentCount + 1,
          writeInFlight := true }

/-- Modelled from the spec: body of run (declared noexcept in the header)
is not in the header.  run always returns a future, here identified by a
fresh promise id.  If the connection is dead the future is fulfilled with
the dead-connection error synchronously, before run returns, without
touching the queue or the transport; otherwise the command is appended to
the tail of the queue and the send loop is kicked. -/
def run (conn : WatchmanConnection) (command : Wdyn) : WatchmanConnection × Nat :=
  let fid := conn.nextId
  if isDead conn then
    ({ conn with
         nextId := fid + 1,
         fulfilled := conn.fulfilled ++ [(fid, Except.error WatchmanError.connectionClosed)] },
     fid)
  else
    (maybeSendNext
      { conn with
          nextId := fid + 1,
          commandQ := conn.commandQ ++ [⟨fid, command⟩] },
     fid)

/-- Modelled from the spec: body of close is not in the header.  close is a
no-op when the connection is already closing or broken; otherwise it
transitions to Closing and drains the queue, cancelling every queued
command. -/
def close (conn : WatchmanConnection) : WatchmanConnection :=
  if isDead conn then conn
  else failQueuedCommands { conn with closing := true } WatchmanError.cancellation

/-- Modelled from the spec: body of the readEOF callback is not in the
header.  An unexpected end-of-stream transitions the connection to Broken
and fails all pending commands with a transport error. -/
def readEOF (conn : WatchmanConnection) : WatchmanConnection :=
  failQueuedCommands { conn with broken := true } WatchmanError.transport

/-- Translated from the header (lines 77 to 79): forceEOF simply invokes
the readEOF callback. -/
def forceEOF (conn : WatchmanConnection) : WatchmanConnection :=
  readEOF conn

/-- Modelled from the spec: body of the readErr callback is not in the
header.  A transport read error behaves like an end-of-stream: the
connection becomes Broken and all pending commands fail with a transport
error. -/
def readErr (conn : WatchmanConnection) : WatchmanConnection :=
  failQueuedCommands { conn with broken := true } WatchmanError.transport

/-- Modelled from the spec: body of the writeErr callback is not in the
header.  A transport write error breaks the connection and fails all
pending commands. -/
def writeErr (conn : WatchmanConnection) : WatchmanConnection :=
  failQueuedCommands { conn with broken := true, writeInFlight := false } WatchmanError.transport

/-- Modelled from the spec: body of the writeSuccess callback is not in the
header.  After each successful write, if the queue minus the items already
sent is non-empty, the next command is written. -/
def writeSuccess (conn : WatchmanConnection) : WatchmanConnection :=
  maybeSendNext { conn with writeInFlight := false }

/-- Modelled from the spec: dispatch of one decoded PDU (inside
decodeNextResponse, body not in the header).  Before the handshake is done
the value completes the connect result; otherwise, with an empty queue the
value is an unsolicited notification, delivered to the sink when one is
configured and dropped otherwise; otherwise it completes the command at the
head of the queue, which is popped. -/
def dispatchPdu (conn : WatchmanConnection) (value : Wdyn) : WatchmanConnection :=
  if conn.handshakeDone then
    match conn.commandQ with
    | [] =>
      if conn.hasCallback then { conn with sinkLog := conn.sinkLog ++ [value] } else conn
    | qc :: restQ =>
      { conn with
          commandQ := restQ,
          sentCount := conn.sentCount - 1,
          fulfilled := conn.fulfilled ++ [(qc.id, watchmanResponseToTry value)] }
  else
    { conn with
        handshakeDone := true,
        connectResult := some (watchmanResponseToTry value) }

/-- Dispatch of a batch of decoded PDUs in order. -/
def dispatchPdus (conn : WatchmanConnection) (vs : List Wdyn) : WatchmanConnection :=
  vs.foldl dispatchPdu conn

/-- Modelled from the spec: the readDataAvailable callback together with
the decode loop (bodies not in the header).  Incoming bytes are appended to
the inbound buffer and every complete PDU is split off and dispatched; on
malformed bytes the connection breaks with a decode error, all pending work
fails and the malformed remainder is discarded.  A dead connection no
longer receives read events. -/
def readDataAvailable (c : Codec) (conn : WatchmanConnection) (chunk : List Nat) :
    WatchmanConnection :=
  if isDead conn then conn
  else
    let r := extractPdus c (conn.bufQ ++ chunk)
    let conn2 := dispatchPdus conn r.pdus
    if r.malformed then
      failQueuedCommands { conn2 with broken := true, bufQ := [] } WatchmanError.decodeFailure
    else { conn2 with bufQ := r.rest }

/-- Outcome of a connect call: the handshake was started (the returned
future resolves later with the version response), or the call was rejected
and the returned future fails with the given error. -/
inductive ConnectOutcome where
  | started : ConnectOutcome
  | rejected (e : WatchmanError) : ConnectOutcome

/-- Modelled from the spec: body of connect is not in the header.  connect
may be called at most once per connection; a second call is rejected with a
state-machine violation and has no effect on the connection or the queue.
A first call records the version command built from the capability
arguments and initiates the transport connect. -/
def connect (conn : WatchmanConnection) (versionArgs : Wdyn) :
    WatchmanConnection × ConnectOutcome :=
  if conn.connectCalled then (conn, ConnectOutcome.rejected WatchmanError.stateViolation)
  else
    ({ conn with
         connectCalled := true,
         versionCmd := some (Wdyn.arr [Wdyn.str "version", versionArgs]) },
     ConnectOutcome.started)

/-- An externally observable event driving the connection: a caller
submitting a command or closing, and the transport callbacks of the
header (connect, read and write callbacks). -/
inductive Ev where
  | runCmd (cmd : Wdyn) : Ev
  | closeCall : Ev
  | connectCall (args : Wdyn) : Ev
  | readChunk (chunk : List Nat) : Ev
  | readEof : Ev
  | readError : Ev
  | writeOk : Ev
  | writeError : Ev

/-- One step of the connection under an event. -/
def step (c : Codec) (conn : WatchmanConnection) : Ev → WatchmanConnection
  | Ev.runCmd cmd => (run conn cmd).1
  | Ev.closeCall => close conn
  | Ev.connectCall args => (connect conn args).1
  | Ev.readChunk chunk => readDataAvailable c conn chunk
  | Ev.readEof => readEOF conn
  | Ev.readError => readErr conn
  | Ev.writeOk => writeSuccess conn
  | Ev.writeError => writeErr conn

/-- A sequence of events applied in order. -/
def steps (c : Codec) (conn : WatchmanConnection) (evs : List Ev) : WatchmanConnection :=
  evs.foldl (step c) conn

/-- Submission of a list of commands through run, in order. -/
def runAll (conn : WatchmanConnection) (cmds : List Wdyn) : WatchmanConnection :=
  cmds.foldl (fun c cmd => (run c cmd).1) conn

/-- A sequence of read-availability events applied in order. -/
def readAll (c : Codec) (conn : WatchmanConnection) (chunks : List (List Nat)) :
    WatchmanConnection :=
  chunks.foldl (readDataAvailable c) conn

/-- Lookup in an association list keyed by numbers. -/
def alGet (l : List (Nat × Nat)) (k : Nat) : Option Nat :=
  match l with
  | [] => none
  | p :: rest => if p.1 = k then some p.2 else alGet rest k

/-- Update or insert in an association list keyed by numbers. -/
def alSet (l : List (Nat × Nat)) (k v : Nat) : List (Nat × Nat) :=
  match l with
  | [] => [(k, v)]
  | p :: rest => if p.1 = k then (k, v) :: rest else p :: alSet rest k v

/-- Removal from an association list keyed by numbers. -/
def alRemove (l : List (Nat × Nat)) (k : Nat) : List (Nat × Nat) :=
  match l with
  | [] => []
  | p :: rest => if p.1 = k then rest else p :: alRemove rest k

/-- Modulus of the unsigned int reference counter of the header
(std::atomic of unsigned int, 32 bits). -/
def uintMod : Nat := 2 ^ 32

/-- State of the liveness-guard world: the live guards, each mapped to the
connection it currently references, and each connection's
destructorGuardRefCount_ value. -/
structure GuardState where
  guards : List (Nat × Nat)
  counts : List (Nat × Nat)

/-- The reference count a connection currently holds (zero initially). -/
def getCount (st : GuardState) (connId : Nat) : Nat :=
  (alGet st.counts connId).getD 0

/-- Translated from the header (lines 143 to 145): increment of the
destructor-guard reference count, with unsigned 32-bit wrap-around. -/
def incDestructorGuardRefCount (st : GuardState) (connId : Nat) : GuardState :=
  { st with counts := alSet st.counts connId ((getCount st connId + 1) % uintMod) }

/-- Translated from the header (lines 146 to 148): decrement of the
destructor-guard reference count, with unsigned 32-bit wrap-around (a
decrement at zero wraps to 2 ^ 32 - 1). -/
def decDestructorGuardRefCount (st : GuardState) (connId : Nat) : GuardState :=
  { st with counts := alSet st.counts connId ((getCount st connId + (uintMod - 1)) % uintMod) }

/-- An operation on WatchmanConnectionGuard objects: construction from a
connection, copy construction from another guard, copy assignment from
another guard, and destruction.  Guards are named by numbers. -/
inductive GuardOp where
  | construct (g : Nat) (connId : Nat) : GuardOp
  | copyConstruct (g : Nat) (src : Nat) : GuardOp
  | copyAssign (dst : Nat) (src : Nat) : GuardOp
  | destruct (g : Nat) : GuardOp

/-- Translated from the header (lines 82 to 108), the WatchmanConnectionGuard
member functions.  Construction stores the connection and increments its
count; copy construction copies the referenced connection and increments
its count; copy assignment overwrites the referenced connection without
touching any count (the assignment operator only executes
conn_ = other.conn_); destruction decrements the count of the connection
the guard references at that moment.  Operations naming a guard that is
not live are ignored. -/
def guardStep (st : GuardState) : GuardOp → GuardState
  | GuardOp.construct g connId =>
    let st1 := incDestructorGuardRefCount st connId
    { st1 with guards := alSet st1.guards g connId }
  | GuardOp.copyConstruct g src =>
    match alGet st.guards src with
    | some connId =>
      let st1 := incDestructorGuardRefCount st connId
      { st1 with guards := alSet st1.guards g connId }
    | none => st
  | GuardOp.copyAssign dst src =>
    match alGet st.guards dst, alGet st.guards src with
    | some _, some connId => { st with guards := alSet st.guards dst connId }
    | _, _ => st
  | GuardOp.destruct g =>
    match alGet st.guards g with
    | some connId =>
      let st1 := decDestructorGuardRefCount st connId
      { st1 with guards := alRemove st1.guards g }
    | none => st

/-- A sequence of guard operations run from the initial state (no guards,
all counts zero). -/
def runGuardOps (ops : List GuardOp) : GuardState :=
  ops.foldl guardStep ⟨[], []⟩

/-- The guard-operation sequence exposing the unbalanced copy assignment:
guard 1 guards connection 0, guard 2 guards connection 1, guard 2 is then
copy-assigned from guard 1, and both guards are destroyed. -/
def assignAcrossConnections : List GuardOp :=
  [GuardOp.construct 1 0, GuardOp.construct 2 1, GuardOp.copyAssign 2 1,
   GuardOp.destruct 1, GuardOp.destruct 2]

/-- Serialization of the concrete witness codec: a payload of the form
tag 0 followed by one byte decodes to that byte as a number, and the
one-byte payload tag 1 decodes to an object marked as an application-level
error. -/
def deser : List Nat → Option Wdyn
  | [0, k] => some (Wdyn.int (Int.ofNat k))
  | [1] => some (Wdyn.obj [("error", Wdyn.str "boom")])
  | _ => none

/-- One streaming decode attempt of the witness codec: the first byte is
the payload length, followed by the payload. -/
def lengthFramedDecodeOne : List Nat → DecodeResult
  | [] => DecodeResult.incomplete
  | n :: rest =>
    if n ≤ rest.length then
      match deser (rest.take n) with
      | some v => DecodeResult.pdu v (n + 1)
      | none => DecodeResult.malformed
    else DecodeResult.incomplete

/-- The concrete length-framed witness codec. -/
def lengthCodec : Codec := ⟨lengthFramedDecodeOne⟩

/-- The frame encoding a payload under the witness codec. -/
def frame (payload : List Nat) : List Nat :=
  payload.length :: payload

/-- The bytes of a frame decode to the given value ahead of any further
bytes, consuming exactly the frame. -/
def DecodesTo (c : Codec) (bytes : List Nat) (v : Wdyn) : Prop :=
  ∀ ext, c.decodeOne (bytes ++ ext) = DecodeResult.pdu v bytes.length

/-- Invariant of a framer state between read events: unless broken, the
retained buffer holds no complete PDU. -/
def FramerInv (c : Codec) (st : FramerState) : Prop :=
  st.broken = false → c.decodeOne st.buf = DecodeResult.incomplete

/-- Invariant of a connection between read events: unless dead, the
inbound buffer holds no complete PDU. -/
def MachInv (c : Codec) (conn : WatchmanConnection) : Prop :=
  isDead conn = false → c.decodeOne conn.bufQ = DecodeResult.incomplete

/-- The queue entries created by submitting the given commands starting
from the given fresh promise id. -/
def enqueued (i0 : Nat) : List Wdyn → List QueuedCommand
  | [] => []
  | cmd :: rest => ⟨i0, cmd⟩ :: enqueued (i0 + 1) rest

/-- The promise ids of the futures returned by submitting the given
commands in order. -/
def runAllIds (conn : WatchmanConnection) : List Wdyn → List Nat
  | [] => []
  | cmd :: rest => (run conn cmd).2 :: runAllIds (run conn cmd).1 rest

/-- A connection that connected successfully, completed its handshake, and
sits idle: alive, empty queue, empty buffer, nothing fulfilled. -/
def connectedConn : WatchmanConnection :=
  ⟨false, false, true, true, some (Except.ok (Wdyn.str "4.9.0")), none,
   [], [], [], 0, [], false, 0, [], false⟩

/-- A connection that has been closed: dead, with one fulfilled promise
already on record. -/
def closedConn : WatchmanConnection :=
  ⟨false, true, true, true, some (Except.ok (Wdyn.str "4.9.0")), none,
   [], [], [(0, Except.error WatchmanError.cancellation)], 1, [], false, 0, [], false⟩

/-- A connected connection with two commands pending and unanswered. -/
def busyConn : WatchmanConnection :=
  ⟨false, false, true, true, some (Except.ok (Wdyn.str "4.9.0")), none,
   [⟨0, Wdyn.str "watch-list"⟩, ⟨1, Wdyn.str "get-sockname"⟩],
   [], [], 2, [Wdyn.str "watch-list", Wdyn.str "get-sockname"], false, 2, [], false⟩

/-- The application-level error response value the witness codec decodes
from the payload tag 1. -/
def errResponse : Wdyn := Wdyn.obj [("error", Wdyn.str "boom")]

/-- The decode pass does not depend on the fuel once the fuel covers the
buffer length. -/
theorem extractLoop_fuel (c : Codec) (hE : c.EmptyIncomplete) (hC : c.ConsumesValid) :
    ∀ f1 f2 buf, buf.length ≤ f1 → buf.length ≤ f2 →
      extractLoop c f1 buf = extractLoop c f2 buf := by
  have hE2 : c.decodeOne [] = DecodeResult.incomplete := hE
  intro f1
  induction f1 with
  | zero =>
    intro f2 buf h1 _
    have hb : buf = [] := List.length_eq_zero.mp (Nat.le_zero.mp h1)
    subst hb
    cases f2 with
    | zero => rfl
    | succ m => simp [extractLoop, hE2]
  | succ k ih =>
    intro f2 buf h1 h2
    cases f2 with
    | zero =>
      have hb : buf = [] := List.length_eq_zero.mp (Nat.le_zero.mp h2)
      subst hb
      simp [extractLoop, hE2]
    | succ m =>
      simp only [extractLoop]
      cases hd : c.decodeOne buf with
      | pdu v n =>
        have hcv := hC buf v n hd
        have hlen : (buf.drop n).length ≤ k := by
          simp only [List.length_drop]; omega
        have hlen2 : (buf.drop n).length ≤ m := by
          simp only [List.length_drop]; omega
        simp only [ih m (buf.drop n) hlen hlen2]
      | incomplete => rfl
      | malformed => rfl

/-- A decode pass with fuel covering the buffer length equals the standard
decode pass. -/
theorem extractLoop_eq_extractPdus (c : Codec) (hE : c.EmptyIncomplete) (hC : c.ConsumesValid)
    (fuel : Nat) (buf : List Nat) (h : buf.length ≤ fuel) :
    extractLoop c fuel buf = extractPdus c buf :=
  extractLoop_fuel c hE hC fuel buf.length buf h (Nat.le_refl _)

/-- When a decode pass stops without malformed bytes, the retained
remainder is an incomplete buffer for the codec. -/
theorem extract_stop_incomplete (c : Codec) (hE : c.EmptyIncomplete) (hC : c.ConsumesValid) :
    ∀ fuel buf, buf.length ≤ fuel → (extractLoop c fuel buf).malformed = false →
      c.decodeOne (extractLoop c fuel buf).rest = DecodeResult.incomplete := by
  have hE2 : c.decodeOne [] = DecodeResult.incomplete := hE
  intro fuel
  induction fuel with
  | zero =>
    intro buf h1 _
    have hb : buf = [] := List.length_eq_zero.mp (Nat.le_zero.mp h1)
    subst hb
    simpa [extractLoop] using hE2
  | succ k ih =>
    intro buf h1 hm
    simp only [extractLoop] at hm ⊢
    cases hd : c.decodeOne buf with
    | pdu v n =>
      have hcv := hC buf v n hd
      simp only [hd] at hm ⊢
      exact ih (buf.drop n) (by simp only [List.length_drop]; omega) hm
    | incomplete => simp only [hd]
    | malformed => simp [hd] at hm

/-- When a decode pass ends on malformed bytes, the retained remainder is
malformed for the codec. -/
theorem extract_stop_malformed (c : Codec) (hC : c.ConsumesValid) :
    ∀ fuel buf, buf.length ≤ fuel → (extractLoop c fuel buf).malformed = true →
      c.decodeOne (extractLoop c fuel buf).rest = DecodeResult.malformed := by
  intro fuel
  induction fuel with
  | zero =>
    intro buf _ hm
    simp [extractLoop] at hm
  | succ k ih =>
    intro buf h1 hm
    simp only [extractLoop] at hm ⊢
    cases hd : c.decodeOne buf with
    | pdu v n =>
      have hcv := hC buf v n hd
      simp only [hd] at hm ⊢
      exact ih (buf.drop n) (by simp only [List.length_drop]; omega) hm
    | incomplete => simp [hd] at hm
    | malformed => simp only [hd]

/-- A buffer the codec reports incomplete yields an empty decode pass. -/
theorem extract_incomplete (c : Codec) (buf : List Nat)
    (h : c.decodeOne buf = DecodeResult.incomplete) :
    extractPdus c buf = ⟨[], buf, false⟩ := by
  cases buf with
  | nil => rfl
  | cons b rest => simp [extractPdus, extractLoop, h]

/-- Unfolding of one successful split of the decode pass: when the codec
extracts a PDU, the pass records it and continues past the consumed
bytes. -/
theorem extractPdus_pdu (c : Codec) (hE : c.EmptyIncomplete) (hC : c.ConsumesValid)
    (buf : List Nat) (v : Wdyn) (n : Nat) (hd : c.decodeOne buf = DecodeResult.pdu v n) :
    extractPdus c buf =
      ⟨v :: (extractPdus c (buf.drop n)).pdus, (extractPdus c (buf.drop n)).rest,
       (extractPdus c (buf.drop n)).malformed⟩ := by
  have hcv := hC buf v n hd
  have hpos : 0 < buf.length := by omega
  have hstep : extractPdus c buf = extractLoop c ((buf.length - 1) + 1) buf := by
    unfold extractPdus
    rw [extractLoop_fuel c hE hC buf.length ((buf.length - 1) + 1) buf (Nat.le_refl _) (by omega)]
  rw [hstep]
  simp only [extractLoop, hd]
  rw [extractLoop_eq_extractPdus c hE hC (buf.length - 1) (buf.drop n)
    (by simp only [List.length_drop]; omega)]

/-- Unfolding of a decode pass that immediately hits malformed bytes in a
non-empty buffer. -/
theorem extractPdus_malformed (c : Codec) (hE : c.EmptyIncomplete)
    (buf : List Nat) (hd : c.decodeOne buf = DecodeResult.malformed) :
    extractPdus c buf = ⟨[], buf, true⟩ := by
  cases buf with
  | nil =>
    have hE2 : c.decodeOne [] = DecodeResult.incomplete := hE
    rw [hE2] at hd
    cases hd
  | cons x xs => simp [extractPdus, extractLoop, hd]

/-- Appending bytes to a buffer whose decode pass ended on malformed bytes
yields the same PDUs and ends on malformed bytes again, the remainder
growing by the appended bytes. -/
theorem extract_append_mal (c : Codec) (hE : c.EmptyIncomplete) (hC : c.ConsumesValid)
    (hP : c.PrefixStable) (hM : c.MalformedStable) :
    ∀ N buf b, buf.length ≤ N → (extractPdus c buf).malformed = true →
      extractPdus c (buf ++ b) =
        ⟨(extractPdus c buf).pdus, (extractPdus c buf).rest ++ b, true⟩ := by
  intro N
  induction N with
  | zero =>
    intro buf b h1 hm
    have hb : buf = [] := List.length_eq_zero.mp (Nat.le_zero.mp h1)
    subst hb
    simp [extractPdus, extractLoop] at hm
  | succ k ih =>
    intro buf b h1 hm
    cases hd : c.decodeOne buf with
    | pdu v n =>
      have hcv := hC buf v n hd
      have hunf := extractPdus_pdu c hE hC buf v n hd
      have hd2 : c.decodeOne (buf ++ b) = DecodeResult.pdu v n := hP buf b v n hd
      have hunf2 := extractPdus_pdu c hE hC (buf ++ b) v n hd2
      have hdrop : (buf ++ b).drop n = buf.drop n ++ b :=
        List.drop_append_of_le_length hcv.2
      have hmrec : (extractPdus c (buf.drop n)).malformed = true := by
        rw [hunf] at hm
        exact hm
      have hih := ih (buf.drop n) b (by simp only [List.length_drop]; omega) hmrec
      rw [hunf2, hdrop, hih, hunf]
    | incomplete =>
      rw [extract_incomplete c buf hd] at hm
      cases hm
    | malformed =>
      have hd2 : c.decodeOne (buf ++ b) = DecodeResult.malformed := hM buf b hd
      rw [extractPdus_malformed c hE buf hd, extractPdus_malformed c hE (buf ++ b) hd2]

/-- Appending bytes to a buffer whose decode pass stopped on an incomplete
remainder continues the pass: the PDUs of the extended buffer are the PDUs
already extracted followed by those of the remainder with the new bytes. -/
theorem extract_append_ok (c : Codec) (hE : c.EmptyIncomplete) (hC : c.ConsumesValid)
    (hP : c.PrefixStable) :
    ∀ N buf b, buf.length ≤ N → (extractPdus c buf).malformed = false →
      extractPdus c (buf ++ b) =
        ⟨(extractPdus c buf).pdus ++ (extractPdus c ((extractPdus c buf).rest ++ b)).pdus,
         (extractPdus c ((extractPdus c buf).rest ++ b)).rest,
         (extractPdus c ((extractPdus c buf).rest ++ b)).malformed⟩ := by
  intro N
  induction N with
  | zero =>
    intro buf b h1 _
    have hb : buf = [] := List.length_eq_zero.mp (Nat.le_zero.mp h1)
    subst hb
    simp [extractPdus, extractLoop]
  | succ k ih =>
    intro buf b h1 hm
    cases hd : c.decodeOne buf with
    | pdu v n =>
      have hcv := hC buf v n hd
      have hunf := extractPdus_pdu c hE hC buf v n hd
      have hd2 : c.decodeOne (buf ++ b) = DecodeResult.pdu v n := hP buf b v n hd
      have hunf2 := extractPdus_pdu c hE hC (buf ++ b) v n hd2
      have hdrop : (buf ++ b).drop n = buf.drop n ++ b :=
        List.drop_append_of_le_length hcv.2
      have hmrec : (extractPdus c (buf.drop n)).malformed = false := by
        rw [hunf] at hm
        exact hm
      have hih := ih (buf.drop n) b (by simp only [List.length_drop]; omega) hmrec
      rw [hunf2, hdrop, hih, hunf]
      simp
    | incomplete =>
      rw [extract_incomplete c buf hd]
      simp
    | malformed =>
      rw [extractPdus_malformed c hE buf hd] at hm
      cases hm

/-- A decode pass over a concatenation of complete frames extracts exactly
the framed values, in order, leaving an empty remainder. -/
theorem extract_frames (c : Codec) (hE : c.EmptyIncomplete) (hC : c.ConsumesValid) :
    ∀ encs vs, List.Forall₂ (DecodesTo c) encs vs →
      extractPdus c encs.flatten = ⟨vs, [], false⟩ := by
  intro encs vs h
  induction h with
  | nil => rfl
  | cons hdec htail ih =>
    rename_i e v es vs2
    have hd : c.decodeOne (e ++ es.flatten) = DecodeResult.pdu v e.length := hdec es.flatten
    have hunf := extractPdus_pdu c hE hC (e ++ es.flatten) v e.length hd
    have hdrop : (e ++ es.flatten).drop e.length = es.flatten := List.drop_left e es.flatten
    simp only [List.flatten_cons]
    rw [hunf, hdrop, ih]

/-- Stop condition of a full decode pass: a pass that did not end on
malformed bytes leaves an incomplete remainder. -/
theorem extractPdus_stop (c : Codec) (hE : c.EmptyIncomplete) (hC : c.ConsumesValid)
    (buf : List Nat) (hm : (extractPdus c buf).malformed = false) :
    c.decodeOne (extractPdus c buf).rest = DecodeResult.incomplete :=
  extract_stop_incomplete c hE hC buf.length buf (Nat.le_refl _) hm

/-- A broken framer ignores read events. -/
theorem feedFramer_broken_eq (c : Codec) (st : FramerState) (chunk : List Nat)
    (hb : st.broken = true) : feedFramer c st chunk = st := by
  simp [feedFramer, hb]

/-- A read event whose decode pass ends on malformed bytes breaks the
framer and discards the remainder. -/
theorem feedFramer_mal_eq (c : Codec) (st : FramerState) (chunk : List Nat)
    (hb : st.broken = false) (hm : (extractPdus c (st.buf ++ chunk)).malformed = true) :
    feedFramer c st chunk = ⟨[], st.emitted ++ (extractPdus c (st.buf ++ chunk)).pdus, true⟩ := by
  simp [feedFramer, hb, hm]

/-- A read event whose decode pass stops on an incomplete remainder emits
the extracted PDUs and retains the remainder. -/
theorem feedFramer_ok_eq (c : Codec) (st : FramerState) (chunk : List Nat)
    (hb : st.broken = false) (hm : (extractPdus c (st.buf ++ chunk)).malformed = false) :
    feedFramer c st chunk =
      ⟨(extractPdus c (st.buf ++ chunk)).rest,
       st.emitted ++ (extractPdus c (st.buf ++ chunk)).pdus, false⟩ := by
  simp [feedFramer, hb, hm]

/-- A read event with no bytes leaves an invariant framer state unchanged. -/
theorem feedFramer_nil (c : Codec) (st : FramerState) (hinv : FramerInv c st) :
    feedFramer c st [] = st := by
  cases hb : st.broken with
  | true => exact feedFramer_broken_eq c st [] hb
  | false =>
    have hbuf : c.decodeOne st.buf = DecodeResult.incomplete := hinv hb
    have hext : extractPdus c (st.buf ++ []) = ⟨[], st.buf, false⟩ := by
      rw [List.append_nil]
      exact extract_incomplete c st.buf hbuf
    rw [feedFramer_ok_eq c st [] hb (by rw [hext])]
    rw [hext]
    cases st with
    | mk buf emitted broken =>
      simp only at hb
      subst hb
      simp

/-- The framer invariant is preserved by every read event. -/
theorem feedFramer_inv (c : Codec) (hE : c.EmptyIncomplete) (hC : c.ConsumesValid)
    (st : FramerState) (chunk : List Nat) (hinv : FramerInv c st) :
    FramerInv c (feedFramer c st chunk) := by
  cases hb : st.broken with
  | true =>
    rw [feedFramer_broken_eq c st chunk hb]
    exact hinv
  | false =>
    cases hm : (extractPdus c (st.buf ++ chunk)).malformed with
    | true =>
      rw [feedFramer_mal_eq c st chunk hb hm]
      intro hcontra
      cases hcontra
    | false =>
      rw [feedFramer_ok_eq c st chunk hb hm]
      intro _
      exact extractPdus_stop c hE hC (st.buf ++ chunk) hm

/-- Feeding one chunk and then another gives the same framer state as
feeding their concatenation in a single read event. -/
theorem feedFramer_merge (c : Codec) (hE : c.EmptyIncomplete) (hC : c.ConsumesValid)
    (hP : c.PrefixStable) (hM : c.MalformedStable)
    (st : FramerState) (a b : List Nat) :
    feedFramer c (feedFramer c st a) b = feedFramer c st (a ++ b) := by
  cases hb : st.broken with
  | true => simp [feedFramer, hb]
  | false =>
    have hr : st.buf ++ (a ++ b) = (st.buf ++ a) ++ b := (List.append_assoc _ _ _).symm
    cases hm : (extractPdus c (st.buf ++ a)).malformed with
    | true =>
      have hx := extract_append_mal c hE hC hP hM (st.buf ++ a).length (st.buf ++ a) b
        (Nat.le_refl _) hm
      simp only [feedFramer, hb, hm, hr, hx]
      simp
    | false =>
      have hx := extract_append_ok c hE hC hP (st.buf ++ a).length (st.buf ++ a) b
        (Nat.le_refl _) hm
      cases hm2 : (extractPdus c ((extractPdus c (st.buf ++ a)).rest ++ b)).malformed with
      | true =>
        simp only [feedFramer, hb, hm, hm2, hr, hx]
        simp [List.append_assoc]
        exact hm2
      | false =>
        simp only [feedFramer, hb, hm, hm2, hr, hx]
        simp [List.append_assoc]
        exact hm2

/-- A sequence of read events is equivalent to one read event carrying the
concatenation of all their bytes. -/
theorem feedFramerAll_concat (c : Codec) (hE : c.EmptyIncomplete) (hC : c.ConsumesValid)
    (hP : c.PrefixStable) (hM : c.MalformedStable) :
    ∀ chunks st, FramerInv c st →
      feedFramerAll c st chunks = feedFramer c st chunks.flatten := by
  intro chunks
  induction chunks with
  | nil =>
    intro st hinv
    exact (feedFramer_nil c st hinv).symm
  | cons ch rest ih =>
    intro st hinv
    have h1 : feedFramerAll c st (ch :: rest) = feedFramerAll c (feedFramer c st ch) rest := rfl
    rw [h1, ih (feedFramer c st ch) (feedFramer_inv c hE hC st ch hinv),
      feedFramer_merge c hE hC hP hM st ch rest.flatten]
    rfl

/-- Dispatching a PDU never changes the broken flag. -/
theorem dispatchPdu_broken (conn : WatchmanConnection) (v : Wdyn) :
    (dispatchPdu conn v).broken = conn.broken := by
  cases hh : conn.handshakeDone <;> cases hq : conn.commandQ <;>
    cases hcb : conn.hasCallback <;> simp [dispatchPdu, hh, hq, hcb]

/-- Dispatching a PDU never changes the closing flag. -/
theorem dispatchPdu_closing (conn : WatchmanConnection) (v : Wdyn) :
    (dispatchPdu conn v).closing = conn.closing := by
  cases hh : conn.handshakeDone <;> cases hq : conn.commandQ <;>
    cases hcb : conn.hasCallback <;> simp [dispatchPdu, hh, hq, hcb]

/-- Dispatching a PDU never changes the inbound buffer. -/
theorem dispatchPdu_bufQ (conn : WatchmanConnection) (v : Wdyn) :
    (dispatchPdu conn v).bufQ = conn.bufQ := by
  cases hh : conn.handshakeDone <;> cases hq : conn.commandQ <;>
    cases hcb : conn.hasCallback <;> simp [dispatchPdu, hh, hq, hcb]

/-- Dispatching a PDU keeps the handshake completed. -/
theorem dispatchPdu_handshake (conn : WatchmanConnection) (v : Wdyn)
    (hh : conn.handshakeDone = true) : (dispatchPdu conn v).handshakeDone = true := by
  cases hq : conn.commandQ <;> cases hcb : conn.hasCallback <;> simp [dispatchPdu, hh, hq, hcb]

/-- Dispatching a batch of PDUs never changes the broken flag. -/
theorem dispatchPdus_broken (vs : List Wdyn) : ∀ conn : WatchmanConnection,
    (dispatchPdus conn vs).broken = conn.broken := by
  induction vs with
  | nil => intro conn; rfl
  | cons v rest ih =>
    intro conn
    have h1 : dispatchPdus conn (v :: rest) = dispatchPdus (dispatchPdu conn v) rest := rfl
    rw [h1, ih (dispatchPdu conn v), dispatchPdu_broken]

/-- Dispatching a batch of PDUs never changes the closing flag. -/
theorem dispatchPdus_closing (vs : List Wdyn) : ∀ conn : WatchmanConnection,
    (dispatchPdus conn vs).closing = conn.closing := by
  induction vs with
  | nil => intro conn; rfl
  | cons v rest ih =>
    intro conn
    have h1 : dispatchPdus conn (v :: rest) = dispatchPdus (dispatchPdu conn v) rest := rfl
    rw [h1, ih (dispatchPdu conn v), dispatchPdu_closing]

/-- Dispatching a batch of PDUs never changes the inbound buffer. -/
theorem dispatchPdus_bufQ (vs : List Wdyn) : ∀ conn : WatchmanConnection,
    (dispatchPdus conn vs).bufQ = conn.bufQ := by
  induction vs with
  | nil => intro conn; rfl
  | cons v rest ih =>
    intro conn
    have h1 : dispatchPdus conn (v :: rest) = dispatchPdus (dispatchPdu conn v) rest := rfl
    rw [h1, ih (dispatchPdu conn v), dispatchPdu_bufQ]

/-- Dispatching a batch of PDUs never revives or kills the connection. -/
theorem isDead_dispatchPdus (vs : List Wdyn) (conn : WatchmanConnection) :
    isDead (dispatchPdus conn vs) = isDead conn := by
  unfold isDead
  rw [dispatchPdus_broken, dispatchPdus_closing]

/-- Dispatching a concatenation of two PDU batches is dispatching one then
the other. -/
theorem dispatchPdus_append (conn : WatchmanConnection) (vs1 vs2 : List Wdyn) :
    dispatchPdus conn (vs1 ++ vs2) = dispatchPdus (dispatchPdus conn vs1) vs2 :=
  List.foldl_append _ _ _ _

/-- Dispatching a PDU commutes with overwriting the inbound buffer. -/
theorem dispatchPdu_setBuf (conn : WatchmanConnection) (v : Wdyn) (x : List Nat) :
    dispatchPdu { conn with bufQ := x } v = { dispatchPdu conn v with bufQ := x } := by
  cases conn with
  | mk broken closing cc hs cr vc q bq ful nid wr wif sc sl hcb =>
    cases hs <;> cases q <;> cases hcb <;> rfl

/-- Dispatching a batch of PDUs commutes with overwriting the inbound
buffer. -/
theorem dispatchPdus_setBuf (vs : List Wdyn) : ∀ (conn : WatchmanConnection) (x : List Nat),
    dispatchPdus { conn with bufQ := x } vs = { dispatchPdus conn vs with bufQ := x } := by
  induction vs with
  | nil => intro conn x; rfl
  | cons v rest ih =>
    intro conn x
    have h1 : dispatchPdus { conn with bufQ := x } (v :: rest) =
        dispatchPdus (dispatchPdu { conn with bufQ := x } v) rest := rfl
    rw [h1, dispatchPdu_setBuf, ih]
    rfl

/-- A dead connection no longer receives read events. -/
theorem read_dead_eq (c : Codec) (conn : WatchmanConnection) (chunk : List Nat)
    (h : isDead conn = true) : readDataAvailable c conn chunk = conn := by
  simp [readDataAvailable, h]

/-- A read event whose decode pass ends on malformed bytes dispatches the
extracted PDUs, breaks the connection with a decode error and discards the
buffer. -/
theorem read_mal_eq (c : Codec) (conn : WatchmanConnection) (chunk : List Nat)
    (h : isDead conn = false)
    (hm : (extractPdus c (conn.bufQ ++ chunk)).malformed = true) :
    readDataAvailable c conn chunk =
      failQueuedCommands
        { dispatchPdus conn (extractPdus c (conn.bufQ ++ chunk)).pdus with
            broken := true, bufQ := [] }
        WatchmanError.decodeFailure := by
  simp [readDataAvailable, h, hm]

/-- A read event whose decode pass stops on an incomplete remainder
dispatches the extracted PDUs and retains the remainder. -/
theorem read_ok_eq (c : Codec) (conn : WatchmanConnection) (chunk : List Nat)
    (h : isDead conn = false)
    (hm : (extractPdus c (conn.bufQ ++ chunk)).malformed = false) :
    readDataAvailable c conn chunk =
      { dispatchPdus conn (extractPdus c (conn.bufQ ++ chunk)).pdus with
          bufQ := (extractPdus c (conn.bufQ ++ chunk)).rest } := by
  simp [readDataAvailable, h, hm]

/-- Overwriting the buffer of an overwritten buffer keeps the outer
overwrite. -/
theorem setBuf_setBuf (conn : WatchmanConnection) (x y : List Nat) :
    ({ { conn with bufQ := x } with bufQ := y } : WatchmanConnection) =
      { conn with bufQ := y } := by
  cases conn
  rfl

/-- Breaking a connection whose buffer was overwritten ignores the
overwrite. -/
theorem setBuf_break (conn : WatchmanConnection) (x : List Nat) :
    ({ { conn with bufQ := x } with broken := true, bufQ := [] } : WatchmanConnection) =
      { conn with broken := true, bufQ := [] } := by
  cases conn
  rfl

/-- Draining the queue preserves the broken and closing flags. -/
theorem failQueuedCommands_flags (conn : WatchmanConnection) (ex : WatchmanError) :
    (failQueuedCommands conn ex).broken = conn.broken ∧
      (failQueuedCommands conn ex).closing = conn.closing :=
  ⟨rfl, rfl⟩

/-- A connection broken by a decode failure is dead. -/
theorem isDead_breakConn (conn : WatchmanConnection) (ex : WatchmanError) :
    isDead (failQueuedCommands { conn with broken := true, bufQ := [] } ex) = true := by
  simp [isDead, failQueuedCommands]

/-- The inbound buffer after an overwrite. -/
theorem setBuf_bufQ (conn : WatchmanConnection) (x : List Nat) :
    ({ conn with bufQ := x } : WatchmanConnection).bufQ = x := rfl

/-- Liveness is unaffected by overwriting the inbound buffer. -/
theorem isDead_setBuf (conn : WatchmanConnection) (x : List Nat) :
    isDead { conn with bufQ := x } = isDead conn := rfl

/-- Receiving one chunk and then another gives the same connection state as
receiving their concatenation in a single read event. -/
theorem read_merge (c : Codec) (hE : c.EmptyIncomplete) (hC : c.ConsumesValid)
    (hP : c.PrefixStable) (hM : c.MalformedStable)
    (conn : WatchmanConnection) (a b : List Nat) :
    readDataAvailable c (readDataAvailable c conn a) b =
      readDataAvailable c conn (a ++ b) := by
  cases hd : isDead conn with
  | true => rw [read_dead_eq c conn a hd, read_dead_eq c conn b hd, read_dead_eq c conn (a ++ b) hd]
  | false =>
    have hr : conn.bufQ ++ (a ++ b) = (conn.bufQ ++ a) ++ b := (List.append_assoc _ _ _).symm
    cases hm : (extractPdus c (conn.bufQ ++ a)).malformed with
    | true =>
      have hx := extract_append_mal c hE hC hP hM (conn.bufQ ++ a).length (conn.bufQ ++ a) b
        (Nat.le_refl _) hm
      rw [read_mal_eq c conn a hd hm,
        read_dead_eq c _ b (isDead_breakConn _ _),
        read_mal_eq c conn (a ++ b) hd (by rw [hr, hx])]
      rw [hr, hx]
    | false =>
      have hx := extract_append_ok c hE hC hP (conn.bufQ ++ a).length (conn.bufQ ++ a) b
        (Nat.le_refl _) hm
      rw [read_ok_eq c conn a hd hm]
      have hd1 : isDead { dispatchPdus conn (extractPdus c (conn.bufQ ++ a)).pdus with
          bufQ := (extractPdus c (conn.bufQ ++ a)).rest } = false := by
        rw [isDead_setBuf, isDead_dispatchPdus]
        exact hd
      cases hm2 : (extractPdus c ((extractPdus c (conn.bufQ ++ a)).rest ++ b)).malformed with
      | true =>
        rw [read_mal_eq c _ b hd1 (by rw [setBuf_bufQ]; exact hm2),
          read_mal_eq c conn (a ++ b) hd (by rw [hr, hx]; exact hm2)]
        rw [setBuf_bufQ, dispatchPdus_setBuf, setBuf_break, hr, hx]
        rw [dispatchPdus_append]
      | false =>
        rw [read_ok_eq c _ b hd1 (by rw [setBuf_bufQ]; exact hm2),
          read_ok_eq c conn (a ++ b) hd (by rw [hr, hx]; exact hm2)]
        rw [setBuf_bufQ, dispatchPdus_setBuf, setBuf_setBuf, hr, hx]
        rw [dispatchPdus_append]

/-- Overwriting the buffer with its current value changes nothing. -/
theorem setBuf_self (conn : WatchmanConnection) :
    ({ conn with bufQ := conn.bufQ } : WatchmanConnection) = conn := by
  cases conn
  rfl

/-- A read event with no bytes leaves an invariant connection unchanged. -/
theorem read_nil (c : Codec) (conn : WatchmanConnection) (hinv : MachInv c conn) :
    readDataAvailable c conn [] = conn := by
  cases hd : isDead conn with
  | true => exact read_dead_eq c conn [] hd
  | false =>
    have hbuf : c.decodeOne conn.bufQ = DecodeResult.incomplete := hinv hd
    have hext : extractPdus c (conn.bufQ ++ []) = ⟨[], conn.bufQ, false⟩ := by
      rw [List.append_nil]
      exact extract_incomplete c conn.bufQ hbuf
    rw [read_ok_eq c conn [] hd (by rw [hext]), hext]
    exact setBuf_self conn

/-- The connection invariant is preserved by every read event. -/
theorem read_inv (c : Codec) (hE : c.EmptyIncomplete) (hC : c.ConsumesValid)
    (conn : WatchmanConnection) (chunk : List Nat) (hinv : MachInv c conn) :
    MachInv c (readDataAvailable c conn chunk) := by
  cases hd : isDead conn with
  | true =>
    rw [read_dead_eq c conn chunk hd]
    exact hinv
  | false =>
    cases hm : (extractPdus c (conn.bufQ ++ chunk)).malformed with
    | true =>
      rw [read_mal_eq c conn chunk hd hm]
      intro hcontra
      rw [isDead_breakConn] at hcontra
      cases hcontra
    | false =>
      rw [read_ok_eq c conn chunk hd hm]
      intro _
      rw [setBuf_bufQ]
      exact extractPdus_stop c hE hC (conn.bufQ ++ chunk) hm

/-- A sequence of read events is equivalent to one read event carrying the
concatenation of all their bytes. -/
theorem readAll_concat (c : Codec) (hE : c.EmptyIncomplete) (hC : c.ConsumesValid)
    (hP : c.PrefixStable) (hM : c.MalformedStable) :
    ∀ chunks (conn : WatchmanConnection), MachInv c conn →
      readAll c conn chunks = readDataAvailable c conn chunks.flatten := by
  intro chunks
  induction chunks with
  | nil =>
    intro conn hinv
    exact (read_nil c conn hinv).symm
  | cons ch rest ih =>
    intro conn hinv
    have h1 : readAll c conn (ch :: rest) = readAll c (readDataAvailable c conn ch) rest := rfl
    rw [h1, ih (readDataAvailable c conn ch) (read_inv c hE hC conn ch hinv),
      read_merge c hE hC hP hM conn ch rest.flatten]
    rfl

/-- The send loop changes only the write-tracking fields, never the queue,
the fulfillment log, the lifecycle flags, the buffer, the promise counter
or the handshake state. -/
theorem maybeSendNext_preserves (conn : WatchmanConnection) :
    (maybeSendNext conn).commandQ = conn.commandQ ∧
    (maybeSendNext conn).fulfilled = conn.fulfilled ∧
    (maybeSendNext conn).broken = conn.broken ∧
    (maybeSendNext conn).closing = conn.closing ∧
    (maybeSendNext conn).bufQ = conn.bufQ ∧
    (maybeSendNext conn).nextId = conn.nextId ∧
    (maybeSendNext conn).handshakeDone = conn.handshakeDone := by
  cases hw : conn.writeInFlight <;> cases hd : isDead conn <;>
    cases hq : conn.commandQ.drop conn.sentCount <;>
    simp [maybeSendNext, hw, hd, hq]

/-- Unfolding of run on a dead connection: the fresh promise is fulfilled
with the dead-connection error at once and nothing else changes. -/
theorem run_dead_eq (conn : WatchmanConnection) (cmd : Wdyn) (h : isDead conn = true) :
    run conn cmd =
      ({ conn with
           nextId := conn.nextId + 1,
           fulfilled := conn.fulfilled ++
             [(conn.nextId, Except.error WatchmanError.connectionClosed)] },
       conn.nextId) := by
  simp [run, h]

/-- Unfolding of run on a live connection: the command is appended to the
queue under a fresh promise id and the send loop runs. -/
theorem run_alive_eq (conn : WatchmanConnection) (cmd : Wdyn) (h : isDead conn = false) :
    run conn cmd =
      (maybeSendNext
        { conn with
            nextId := conn.nextId + 1,
            commandQ := conn.commandQ ++ [⟨conn.nextId, cmd⟩] },
       conn.nextId) := by
  simp [run, h]

/-- Liveness is unaffected by submitting a command. -/
theorem isDead_run (conn : WatchmanConnection) (cmd : Wdyn) :
    isDead (run conn cmd).1 = isDead conn := by
  cases hd : isDead conn with
  | true => rw [run_dead_eq conn cmd hd]; exact hd
  | false =>
    rw [run_alive_eq conn cmd hd]
    unfold isDead
    have hpre := maybeSendNext_preserves
      { conn with
          nextId := conn.nextId + 1,
          commandQ := conn.commandQ ++ [⟨conn.nextId, cmd⟩] }
    rw [hpre.2.2.1, hpre.2.2.2.1]
    exact hd

/-- Submitting a batch of commands on a live connection appends them to
the queue under consecutive fresh promise ids and touches neither the
fulfillment log, the lifecycle flags, the buffer nor the handshake
state. -/
theorem runAll_fields (cmds : List Wdyn) : ∀ conn : WatchmanConnection,
    isDead conn = false →
    (runAll conn cmds).commandQ = conn.commandQ ++ enqueued conn.nextId cmds ∧
    (runAll conn cmds).fulfilled = conn.fulfilled ∧
    (runAll conn cmds).broken = conn.broken ∧
    (runAll conn cmds).closing = conn.closing ∧
    (runAll conn cmds).bufQ = conn.bufQ ∧
    (runAll conn cmds).nextId = conn.nextId + cmds.length ∧
    (runAll conn cmds).handshakeDone = conn.handshakeDone := by
  induction cmds with
  | nil =>
    intro conn _
    simp [runAll, enqueued]
  | cons cmd rest ih =>
    intro conn hd
    have h1 : runAll conn (cmd :: rest) = runAll (run conn cmd).1 rest := rfl
    have hd1 : isDead (run conn cmd).1 = false := by rw [isDead_run]; exact hd
    have hih := ih (run conn cmd).1 hd1
    have hrun := run_alive_eq conn cmd hd
    have hpre := maybeSendNext_preserves
      { conn with
          nextId := conn.nextId + 1,
          commandQ := conn.commandQ ++ [⟨conn.nextId, cmd⟩] }
    have hq : (run conn cmd).1.commandQ = conn.commandQ ++ [⟨conn.nextId, cmd⟩] := by
      rw [hrun]
      exact hpre.1
    have hf : (run conn cmd).1.fulfilled = conn.fulfilled := by
      rw [hrun]; exact hpre.2.1
    have hb : (run conn cmd).1.broken = conn.broken := by
      rw [hrun]; exact hpre.2.2.1
    have hc : (run conn cmd).1.closing = conn.closing := by
      rw [hrun]; exact hpre.2.2.2.1
    have hbq : (run conn cmd).1.bufQ = conn.bufQ := by
      rw [hrun]; exact hpre.2.2.2.2.1
    have hn : (run conn cmd).1.nextId = conn.nextId + 1 := by
      rw [hrun]; exact hpre.2.2.2.2.2.1
    have hh : (run conn cmd).1.handshakeDone = conn.handshakeDone := by
      rw [hrun]; exact hpre.2.2.2.2.2.2
    rw [h1]
    refine ⟨?_, ?_, ?_, ?_, ?_, ?_, ?_⟩
    · rw [hih.1, hq, hn, List.append_assoc]
      rfl
    · rw [hih.2.1, hf]
    · rw [hih.2.2.1, hb]
    · rw [hih.2.2.2.1, hc]
    · rw [hih.2.2.2.2.1, hbq]
    · rw [hih.2.2.2.2.2.1, hn]
      simp [List.length_cons]
      omega
    · rw [hih.2.2.2.2.2.2, hh]

/-- The future returned by run is always the fresh promise id. -/
theorem run_snd (conn : WatchmanConnection) (cmd : Wdyn) : (run conn cmd).2 = conn.nextId := by
  cases hd : isDead conn with
  | true => rw [run_dead_eq conn cmd hd]
  | false => rw [run_alive_eq conn cmd hd]

/-- Each run call advances the promise counter by one. -/
theorem run_nextId (conn : WatchmanConnection) (cmd : Wdyn) :
    (run conn cmd).1.nextId = conn.nextId + 1 := by
  cases hd : isDead conn with
  | true => rw [run_dead_eq conn cmd hd]
  | false =>
    rw [run_alive_eq conn cmd hd]
    exact (maybeSendNext_preserves _).2.2.2.2.2.1

/-- The futures returned by a batch of run calls carry consecutive promise
ids starting at the current counter. -/
theorem runAllIds_eq (cmds : List Wdyn) : ∀ conn : WatchmanConnection,
    runAllIds conn cmds = List.range' conn.nextId cmds.length := by
  induction cmds with
  | nil => intro conn; rfl
  | cons cmd rest ih =>
    intro conn
    have h1 : runAllIds conn (cmd :: rest) =
        (run conn cmd).2 :: runAllIds (run conn cmd).1 rest := rfl
    rw [h1, run_snd, ih (run conn cmd).1, run_nextId]
    rfl

/-- Submitting commands creates one queue entry per command. -/
theorem enqueued_length (cmds : List Wdyn) : ∀ i0, (enqueued i0 cmds).length = cmds.length := by
  induction cmds with
  | nil => intro i0; rfl
  | cons cmd rest ih =>
    intro i0
    simp [enqueued, ih (i0 + 1)]

/-- The promise ids of freshly enqueued commands are the consecutive ids
starting at the counter. -/
theorem enqueued_zip (cmds : List Wdyn) : ∀ (i0 : Nat) (rs : List Wdyn),
    List.zipWith (fun (qc : QueuedCommand) (r : Wdyn) => (qc.id, watchmanResponseToTry r))
        (enqueued i0 cmds) rs =
      List.zipWith (fun fid r => (fid, watchmanResponseToTry r))
        (List.range' i0 cmds.length) rs := by
  induction cmds with
  | nil => intro i0 rs; rfl
  | cons cmd rest ih =>
    intro i0 rs
    cases rs with
    | nil => rfl
    | cons r rs2 =>
      have h1 : enqueued i0 (cmd :: rest) = ⟨i0, cmd⟩ :: enqueued (i0 + 1) rest := rfl
      have h2 : List.range' i0 (cmd :: rest).length =
          i0 :: List.range' (i0 + 1) rest.length := rfl
      rw [h1, h2, List.zipWith_cons_cons, List.zipWith_cons_cons, ih (i0 + 1) rs2]

/-- Responses the service did not mark as errors are delivered as their
own success values. -/
theorem zip_ok (ids : List Nat) : ∀ rs : List Wdyn, (∀ r ∈ rs, hasErrorKey r = false) →
    List.zipWith (fun fid r => (fid, watchmanResponseToTry r)) ids rs =
      List.zipWith
        (fun fid (r : Wdyn) => (fid, (Except.ok r : Except WatchmanError Wdyn))) ids rs := by
  induction ids with
  | nil => intro rs _; rfl
  | cons fid ids2 ih =>
    intro rs hwf
    cases rs with
    | nil => rfl
    | cons r rs2 =>
      have hr : hasErrorKey r = false := hwf r (List.mem_cons_self r rs2)
      rw [List.zipWith_cons_cons, List.zipWith_cons_cons,
        ih rs2 (fun x hx => hwf x (List.mem_cons_of_mem r hx))]
      simp [watchmanResponseToTry, hr]

/-- Dispatching responses onto a connection with a completed handshake
completes the commands at the head of the queue, one per response, in
order. -/
theorem dispatchPdus_responses (vs : List Wdyn) : ∀ conn : WatchmanConnection,
    conn.handshakeDone = true → vs.length ≤ conn.commandQ.length →
    dispatchPdus conn vs =
      { conn with
          commandQ := conn.commandQ.drop vs.length,
          sentCount := conn.sentCount - vs.length,
          fulfilled := conn.fulfilled ++
            List.zipWith (fun (qc : QueuedCommand) (v : Wdyn) =>
              (qc.id, watchmanResponseToTry v)) conn.commandQ vs } := by
  induction vs with
  | nil =>
    intro conn _ _
    have h1 : dispatchPdus conn [] = conn := rfl
    rw [h1]
    cases conn
    simp
  | cons v vs2 ih =>
    intro conn hh hle
    cases hq : conn.commandQ with
    | nil =>
      rw [hq] at hle
      simp at hle
    | cons qc restQ =>
      have h1 : dispatchPdus conn (v :: vs2) = dispatchPdus (dispatchPdu conn v) vs2 := rfl
      have hstep : dispatchPdu conn v =
          { conn with
              commandQ := restQ,
              sentCount := conn.sentCount - 1,
              fulfilled := conn.fulfilled ++ [(qc.id, watchmanResponseToTry v)] } := by
        simp [dispatchPdu, hh, hq]
      have hle2 : vs2.length ≤ restQ.length := by
        rw [hq] at hle
        simpa using hle
      rw [h1, hstep, ih _ (by simpa using hh) (by simpa using hle2)]
      simp [List.zipWith_cons_cons, Nat.sub_sub, List.append_assoc, List.drop_succ_cons,
        Nat.add_comm]

/-- The witness codec reports an empty buffer as incomplete. -/
theorem lengthCodec_empty : lengthCodec.EmptyIncomplete := rfl

/-- The witness codec consumes at least one byte and at most the buffer. -/
theorem lengthCodec_consumes : lengthCodec.ConsumesValid := by
  intro b v n h
  cases b with
  | nil => simp [lengthCodec, lengthFramedDecodeOne] at h
  | cons k rest =>
    by_cases hk : k ≤ rest.length
    · cases hdes : deser (rest.take k) with
      | some w =>
        have h2 : DecodeResult.pdu w (k + 1) = DecodeResult.pdu v n := by
          simpa [lengthCodec, lengthFramedDecodeOne, hk, hdes] using h
        rw [DecodeResult.pdu.injEq] at h2
        obtain ⟨_, hn⟩ := h2
        subst hn
        constructor
        · omega
        · simp [List.length_cons]
          omega
      | none => simp [lengthCodec, lengthFramedDecodeOne, hk, hdes] at h
    · simp [lengthCodec, lengthFramedDecodeOne, hk] at h

/-- The witness codec is stable under appending bytes after a complete
frame. -/
theorem lengthCodec_prefixStable : lengthCodec.PrefixStable := by
  intro b ext v n h
  cases b with
  | nil => simp [lengthCodec, lengthFramedDecodeOne] at h
  | cons k rest =>
    by_cases hk : k ≤ rest.length
    · cases hdes : deser (rest.take k) with
      | some w =>
        have h2 : DecodeResult.pdu w (k + 1) = DecodeResult.pdu v n := by
          simpa [lengthCodec, lengthFramedDecodeOne, hk, hdes] using h
        rw [DecodeResult.pdu.injEq] at h2
        obtain ⟨hv, hn⟩ := h2
        subst hv
        subst hn
        have hk2 : k ≤ (rest ++ ext).length := by
          simp [List.length_append]
          omega
        have htk : (rest ++ ext).take k = rest.take k := List.take_append_of_le_length hk
        simp [lengthCodec, lengthFramedDecodeOne, List.cons_append, hk2, htk, hdes]
        omega
      | none => simp [lengthCodec, lengthFramedDecodeOne, hk, hdes] at h
    · simp [lengthCodec, lengthFramedDecodeOne, hk] at h

/-- The witness codec keeps reporting malformed bytes under appending. -/
theorem lengthCodec_malformed : lengthCodec.MalformedStable := by
  intro b ext h
  cases b with
  | nil => simp [lengthCodec, lengthFramedDecodeOne] at h
  | cons k rest =>
    by_cases hk : k ≤ rest.length
    · cases hdes : deser (rest.take k) with
      | some w => simp [lengthCodec, lengthFramedDecodeOne, hk, hdes] at h
      | none =>
        have hk2 : k ≤ (rest ++ ext).length := by
          simp [List.length_append]
          omega
        have htk : (rest ++ ext).take k = rest.take k := List.take_append_of_le_length hk
        simp [lengthCodec, lengthFramedDecodeOne, List.cons_append, hk2, htk, hdes]
        omega
    · simp [lengthCodec, lengthFramedDecodeOne, hk] at h

/-- The witness codec is streaming-coherent. -/
theorem lengthCodec_streaming : lengthCodec.Streaming :=
  ⟨lengthCodec_empty, lengthCodec_consumes, lengthCodec_prefixStable, lengthCodec_malformed⟩

/-- A frame of the witness codec decodes to its deserialized payload. -/
theorem frame_decodesTo (p : List Nat) (v : Wdyn) (h : deser p = some v) :
    DecodesTo lengthCodec (frame p) v := by
  intro ext
  have htk : (p ++ ext).take p.length = p := List.take_left p ext
  have hk : p.length ≤ (p ++ ext).length := by simp [List.length_append]
  simp [frame, lengthCodec, lengthFramedDecodeOne, List.cons_append, hk, htk, h, List.length_cons]

/-- Delivering a stream one byte per event flattens back to the stream. -/
theorem byteChunks_flatten (s : List Nat) : (byteChunks s).flatten = s := by
  induction s with
  | nil => rfl
  | cons b rest ih =>
    have ih2 : (List.map (fun x => [x]) rest).flatten = rest := ih
    simp [byteChunks, ih2]

/-- A dead connection stays dead when it is closed again. -/
theorem close_dead (conn : WatchmanConnection) (h : isDead conn = true) : close conn = conn := by
  simp [close, h]

/-- Closing a live connection makes it dead. -/
theorem isDead_close_alive (conn : WatchmanConnection) (h : isDead conn = false) :
    isDead (close conn) = true := by
  have h2 : conn.closing = false ∧ conn.broken = false := by
    unfold isDead at h
    exact Bool.or_eq_false_iff.mp h
  simp [close, isDead, failQueuedCommands, h2.1, h2.2]

/-- The send loop never revives or kills the connection. -/
theorem isDead_maybeSendNext (conn : WatchmanConnection) :
    isDead (maybeSendNext conn) = isDead conn := by
  unfold isDead
  rw [(maybeSendNext_preserves conn).2.2.1, (maybeSendNext_preserves conn).2.2.2.1]

/-- No event revives a dead connection. -/
theorem isDead_step (c : Codec) (conn : WatchmanConnection) (e : Ev)
    (h : isDead conn = true) : isDead (step c conn e) = true := by
  cases e with
  | runCmd cmd => rw [step, isDead_run]; exact h
  | closeCall => rw [step, close_dead conn h]; exact h
  | connectCall args =>
    cases hcc : conn.connectCalled with
    | true => simp [step, connect, hcc]; exact h
    | false => simp [step, connect, hcc, isDead] at h ⊢; exact h
  | readChunk chunk => rw [step, read_dead_eq c conn chunk h]; exact h
  | readEof => simp [step, readEOF, failQueuedCommands, isDead]
  | readError => simp [step, readErr, failQueuedCommands, isDead]
  | writeOk =>
    rw [step, writeSuccess, isDead_maybeSendNext]
    exact h
  | writeError => simp [step, writeErr, failQueuedCommands, isDead]

/-- No sequence of events revives a dead connection. -/
theorem isDead_steps (c : Codec) : ∀ (evs : List Ev) (conn : WatchmanConnection),
    isDead conn = true → isDead (steps c conn evs) = true := by
  intro evs
  induction evs with
  | nil => intro conn h; exact h
  | cons e rest ih =>
    intro conn h
    have h1 : steps c conn (e :: rest) = steps c (step c conn e) rest := rfl
    rw [h1]
    exact ih (step c conn e) (isDead_step c conn e h)

/-- C1: the liveness-guard reference counting of the header is not
balanced.  Running the operation sequence that constructs guard 1 on
connection 0 and guard 2 on connection 1, copy-assigns guard 2 from
guard 1, and destroys both guards, leaves no live guard while connection
0's destructor-guard count has underflowed to 2 ^ 32 - 1 and connection
1's count is stuck at 1, contradicting the claim that every acquisition
increments the referenced connection's count and that all counts return
exactly to zero once all guards are destroyed. -/
theorem guard_copy_assign_unbalances :
    (runGuardOps assignAcrossConnections).guards = [] ∧
    getCount (runGuardOps assignAcrossConnections) 0 = uintMod - 1 ∧
    getCount (runGuardOps assignAcrossConnections) 1 = 1 :=
  ⟨rfl, rfl, rfl⟩

/-- C3: submitting a command while the connection is dead fulfills the
returned future with the dead-connection error synchronously, inside run
itself, while the command queue, the transport write log and the inbound
buffer are left unchanged. -/
theorem run_dead_fails_fast (conn : WatchmanConnection) (cmd : Wdyn)
    (h : isDead conn = true) :
    run conn cmd =
      ({ conn with
           nextId := conn.nextId + 1,
           fulfilled := conn.fulfilled ++
             [(conn.nextId, Except.error WatchmanError.connectionClosed)] },
       conn.nextId) ∧
    (run conn cmd).1.commandQ = conn.commandQ ∧
    (run conn cmd).1.writes = conn.writes ∧
    (run conn cmd).1.bufQ = conn.bufQ := by
  have he := run_dead_eq conn cmd h
  exact ⟨he, by rw [he], by rw [he], by rw [he]⟩

/-- Witness for C3 at a concrete closed connection. -/
theorem run_dead_fails_fast_witness :
    isDead closedConn = true ∧
    (run closedConn (Wdyn.str "clock")).1.fulfilled =
      closedConn.fulfilled ++
        [(closedConn.nextId, Except.error WatchmanError.connectionClosed)] ∧
    (run closedConn (Wdyn.str "clock")).1.commandQ = closedConn.commandQ ∧
    (run closedConn (Wdyn.str "clock")).1.writes = closedConn.writes := by
  have h := run_dead_fails_fast closedConn (Wdyn.str "clock") rfl
  exact ⟨rfl, by rw [h.1], h.2.1, h.2.2.1⟩

/-- C4: closing a live connection cancels every queued command, in
original order, exactly once each, empties the queue, and the connection
reports dead immediately. -/
theorem close_cancels_all (conn : WatchmanConnection) (h : isDead conn = false) :
    close conn =
      { conn with
          closing := true, commandQ := [], sentCount := 0,
          fulfilled := conn.fulfilled ++ conn.commandQ.map
            (fun qc => (qc.id, Except.error WatchmanError.cancellation)) } ∧
    (close conn).commandQ = [] ∧
    isDead (close conn) = true := by
  have he : close conn =
      failQueuedCommands { conn with closing := true } WatchmanError.cancellation := by
    simp [close, h]
  exact ⟨he.trans rfl, by rw [he]; rfl, isDead_close_alive conn h⟩

/-- Witness for C4 at a concrete connection with two queued commands. -/
theorem close_cancels_all_witness :
    isDead busyConn = false ∧
    (close busyConn).fulfilled =
      [(0, Except.error WatchmanError.cancellation),
       (1, Except.error WatchmanError.cancellation)] ∧
    (close busyConn).commandQ = [] ∧
    isDead (close busyConn) = true := by
  have h := close_cancels_all busyConn rfl
  exact ⟨rfl, by rw [h.1]; rfl, h.2.1, h.2.2⟩

/-- C5: a read error or end-of-stream (forceEOF included, which the header
defines as a call of readEOF) breaks the connection, fails every pending
command with a transport error, and after any further sequence of events
every run call fails fast with the dead-connection error, leaving the
queue untouched. -/
theorem eof_breaks_and_fails_all (c : Codec) (conn : WatchmanConnection) :
    (readEOF conn).broken = true ∧
    (readEOF conn).fulfilled = conn.fulfilled ++
      conn.commandQ.map (fun qc => (qc.id, Except.error WatchmanError.transport)) ∧
    (readEOF conn).commandQ = [] ∧
    forceEOF conn = readEOF conn ∧
    (readErr conn).broken = true ∧
    (readErr conn).fulfilled = conn.fulfilled ++
      conn.commandQ.map (fun qc => (qc.id, Except.error WatchmanError.transport)) ∧
    (readErr conn).commandQ = [] ∧
    (∀ (evs : List Ev) (cmd : Wdyn),
      (run (steps c (readEOF conn) evs) cmd).1.fulfilled =
        (steps c (readEOF conn) evs).fulfilled ++
          [((steps c (readEOF conn) evs).nextId,
            Except.error WatchmanError.connectionClosed)] ∧
      (run (steps c (readEOF conn) evs) cmd).1.commandQ =
        (steps c (readEOF conn) evs).commandQ) := by
  refine ⟨rfl, rfl, rfl, rfl, rfl, rfl, rfl, ?_⟩
  intro evs cmd
  have hdead : isDead (readEOF conn) = true := by
    simp [readEOF, failQueuedCommands, isDead]
  have hd2 : isDead (steps c (readEOF conn) evs) = true := isDead_steps c evs _ hdead
  rw [run_dead_eq _ cmd hd2]
  exact ⟨rfl, rfl⟩

/-- C8: close is idempotent.  On a dead connection it is a no-op, and a
second close never changes anything a single close did. -/
theorem close_idempotent (conn : WatchmanConnection) :
    (isDead conn = true → close conn = conn) ∧ close (close conn) = close conn := by
  refine ⟨close_dead conn, ?_⟩
  cases hd : isDead conn with
  | true => simp [close_dead conn hd]
  | false => exact close_dead (close conn) (isDead_close_alive conn hd)

/-- Witness for C8 at a concrete dead connection and a concrete live
connection with queued commands. -/
theorem close_idempotent_witness :
    close closedConn = closedConn ∧ close (close busyConn) = close busyConn :=
  ⟨(close_idempotent closedConn).1 rfl, (close_idempotent busyConn).2⟩

/-- C9: a connect call on a connection whose connect was already initiated
is rejected with the state-machine violation and returns the connection
completely unchanged, its queue included. -/
theorem connect_second_rejected (conn : WatchmanConnection) (args : Wdyn)
    (h : conn.connectCalled = true) :
    connect conn args = (conn, ConnectOutcome.rejected WatchmanError.stateViolation) := by
  simp [connect, h]

/-- Witness for C9 at a concrete connection that already connected. -/
theorem connect_second_rejected_witness :
    connect connectedConn Wdyn.null =
      (connectedConn, ConnectOutcome.rejected WatchmanError.stateViolation) :=
  connect_second_rejected connectedConn Wdyn.null rfl

/-- C10: run is total and always returns a future carrying the fresh
promise id; on a dead connection the dead-connection failure is delivered
through that future, and on a live connection the command is queued under
that future, with no failure delivered any other way. -/
theorem run_never_throws (conn : WatchmanConnection) (cmd : Wdyn) :
    (run conn cmd).2 = conn.nextId ∧
    (isDead conn = true →
      (run conn cmd).1.fulfilled =
        conn.fulfilled ++ [(conn.nextId, Except.error WatchmanError.connectionClosed)]) ∧
    (isDead conn = false →
      (run conn cmd).1.commandQ = conn.commandQ ++ [⟨conn.nextId, cmd⟩] ∧
      (run conn cmd).1.fulfilled = conn.fulfilled) := by
  refine ⟨run_snd conn cmd, ?_, ?_⟩
  · intro h
    rw [run_dead_eq conn cmd h]
  · intro h
    rw [run_alive_eq conn cmd h]
    dsimp only
    exact ⟨(maybeSendNext_preserves _).1, (maybeSendNext_preserves _).2.1⟩

/-- Witness for C10 at a concrete dead and a concrete live connection. -/
theorem run_never_throws_witness :
    (run closedConn (Wdyn.str "clock")).1.fulfilled =
      closedConn.fulfilled ++
        [(closedConn.nextId, Except.error WatchmanError.connectionClosed)] ∧
    (run connectedConn (Wdyn.str "clock")).1.commandQ =
      connectedConn.commandQ ++ [⟨connectedConn.nextId, Wdyn.str "clock"⟩] :=
  ⟨(run_never_throws closedConn (Wdyn.str "clock")).2.1 rfl,
   ((run_never_throws connectedConn (Wdyn.str "clock")).2.2 rfl).1⟩

/-- C7: for a streaming-coherent codec, delivering a byte stream one byte
per read event drives the framer to exactly the state reached by
delivering the entire stream in a single read event: same decoded PDUs in
the same order, same retained buffer, same broken flag. -/
theorem framing_fragmentation_independent (c : Codec) (hS : c.Streaming) (stream : List Nat) :
    feedFramerAll c initFramer (byteChunks stream) = feedFramer c initFramer stream := by
  obtain ⟨hE, hC, hP, hM⟩ := hS
  have hinv : FramerInv c initFramer := fun _ => hE
  rw [feedFramerAll_concat c hE hC hP hM (byteChunks stream) initFramer hinv,
    byteChunks_flatten stream]

/-- Witness for C7: the witness codec on a concrete two-frame stream,
delivered byte by byte, decodes the same two PDUs as in one read event. -/
theorem framing_fragmentation_independent_witness :
    lengthCodec.Streaming ∧
    feedFramerAll lengthCodec initFramer (byteChunks [2, 0, 7, 1, 1]) =
      feedFramer lengthCodec initFramer [2, 0, 7, 1, 1] ∧
    (feedFramer lengthCodec initFramer [2, 0, 7, 1, 1]).emitted =
      [Wdyn.int 7, errResponse] :=
  ⟨lengthCodec_streaming,
   framing_fragmentation_independent lengthCodec lengthCodec_streaming [2, 0, 7, 1, 1],
   rfl⟩

/-- C2: on a connected, idle connection, submitting N commands and then
receiving N well-formed responses in order, under any fragmentation of the
response bytes across read events, fulfills each command's future with
exactly the response in the same position, matched 1:1 by submission
order, emptying the queue and leaving the connection alive. -/
theorem pipeline_matches_in_order (c : Codec) (hS : c.Streaming)
    (conn : WatchmanConnection) (cmds rs : List Wdyn) (encs chunks : List (List Nat))
    (hAlive : isDead conn = false) (hHs : conn.handshakeDone = true)
    (hQ : conn.commandQ = []) (hBuf : conn.bufQ = [])
    (hLen : cmds.length = rs.length)
    (hEnc : List.Forall₂ (DecodesTo c) encs rs)
    (hWf : ∀ r ∈ rs, hasErrorKey r = false)
    (hFrag : chunks.flatten = encs.flatten) :
    (readAll c (runAll conn cmds) chunks).fulfilled =
        conn.fulfilled ++
          List.zipWith (fun fid r => (fid, (Except.ok r : Except WatchmanError Wdyn)))
            (runAllIds conn cmds) rs ∧
    (readAll c (runAll conn cmds) chunks).commandQ = [] ∧
    isDead (readAll c (runAll conn cmds) chunks) = false := by
  obtain ⟨hE, hC, hP, hM⟩ := hS
  have hf := runAll_fields cmds conn hAlive
  have hAlive1 : isDead (runAll conn cmds) = false := by
    unfold isDead at hAlive ⊢
    rw [hf.2.2.2.1, hf.2.2.1]
    exact hAlive
  have hinv : MachInv c (runAll conn cmds) := by
    intro _
    rw [hf.2.2.2.2.1, hBuf]
    exact hE
  have h1 : readAll c (runAll conn cmds) chunks =
      readDataAvailable c (runAll conn cmds) encs.flatten := by
    rw [readAll_concat c hE hC hP hM chunks (runAll conn cmds) hinv, hFrag]
  have hq1 : (runAll conn cmds).commandQ = enqueued conn.nextId cmds := by
    rw [hf.1, hQ, List.nil_append]
  have hext : extractPdus c ((runAll conn cmds).bufQ ++ encs.flatten) = ⟨rs, [], false⟩ := by
    rw [hf.2.2.2.2.1, hBuf, List.nil_append]
    exact extract_frames c hE hC encs rs hEnc
  have h2 : readDataAvailable c (runAll conn cmds) encs.flatten =
      { dispatchPdus (runAll conn cmds) rs with bufQ := [] } := by
    rw [read_ok_eq c (runAll conn cmds) encs.flatten hAlive1 (by rw [hext]), hext]
  have hlen2 : rs.length ≤ (runAll conn cmds).commandQ.length := by
    rw [hq1, enqueued_length]
    omega
  have h3 := dispatchPdus_responses rs (runAll conn cmds)
    (by rw [hf.2.2.2.2.2.2]; exact hHs) hlen2
  have hqlen : (enqueued conn.nextId cmds).length = rs.length := by
    rw [enqueued_length]
    omega
  refine ⟨?_, ?_, ?_⟩
  · rw [h1, h2]
    show (dispatchPdus (runAll conn cmds) rs).fulfilled = _
    rw [h3]
    show (runAll conn cmds).fulfilled ++
        List.zipWith (fun (qc : QueuedCommand) (v : Wdyn) =>
          (qc.id, watchmanResponseToTry v)) (runAll conn cmds).commandQ rs = _
    rw [hf.2.1, hq1, enqueued_zip cmds conn.nextId rs, zip_ok _ rs hWf,
      runAllIds_eq cmds conn]
  · rw [h1, h2]
    show (dispatchPdus (runAll conn cmds) rs).commandQ = []
    rw [h3]
    show (runAll conn cmds).commandQ.drop rs.length = []
    rw [hq1, ← hqlen, List.drop_length]
  · rw [h1, h2, isDead_setBuf, isDead_dispatchPdus]
    exact hAlive1

/-- Witness for C2: two commands on the witness codec, answered by the
frames for 7 and 9 delivered one byte per read event, fulfill future 0
with 7 and future 1 with 9. -/
theorem pipeline_matches_in_order_witness :
    (readAll lengthCodec (runAll connectedConn [Wdyn.str "q1", Wdyn.str "q2"])
        (byteChunks (frame [0, 7] ++ frame [0, 9]))).fulfilled =
      [(0, Except.ok (Wdyn.int 7)), (1, Except.ok (Wdyn.int 9))] ∧
    (readAll lengthCodec (runAll connectedConn [Wdyn.str "q1", Wdyn.str "q2"])
        (byteChunks (frame [0, 7] ++ frame [0, 9]))).commandQ = [] ∧
    isDead (readAll lengthCodec (runAll connectedConn [Wdyn.str "q1", Wdyn.str "q2"])
        (byteChunks (frame [0, 7] ++ frame [0, 9]))) = false := by
  have h := pipeline_matches_in_order lengthCodec lengthCodec_streaming connectedConn
    [Wdyn.str "q1", Wdyn.str "q2"] [Wdyn.int 7, Wdyn.int 9]
    [frame [0, 7], frame [0, 9]] (byteChunks (frame [0, 7] ++ frame [0, 9]))
    rfl rfl rfl rfl rfl
    (List.Forall₂.cons (frame_decodesTo [0, 7] (Wdyn.int 7) rfl)
      (List.Forall₂.cons (frame_decodesTo [0, 9] (Wdyn.int 9) rfl) List.Forall₂.nil))
    (by intro r hr; simp [List.mem_cons] at hr; rcases hr with rfl | rfl <;> rfl)
    rfl
  exact ⟨by rw [h.1]; rfl, h.2.1, h.2.2⟩

/-- C6: a response that decodes to a value the service marked as an
application-level error completes only the command at the head of the
queue, with a protocol-error result carrying the full decoded payload;
the connection does not break, the rest of the queue and the notification
log are untouched. -/
theorem error_response_completes_only_head (c : Codec) (hS : c.Streaming)
    (conn : WatchmanConnection) (qc : QueuedCommand) (restQ : List QueuedCommand)
    (v : Wdyn) (enc : List Nat)
    (hAlive : isDead conn = false) (hHs : conn.handshakeDone = true)
    (hQ : conn.commandQ = qc :: restQ) (hBuf : conn.bufQ = [])
    (hEnc : DecodesTo c enc v) (hErr : hasErrorKey v = true) :
    (readDataAvailable c conn enc).fulfilled =
        conn.fulfilled ++ [(qc.id, Except.error (WatchmanError.responseError v))] ∧
    (readDataAvailable c conn enc).commandQ = restQ ∧
    (readDataAvailable c conn enc).broken = false ∧
    (readDataAvailable c conn enc).closing = conn.closing ∧
    (readDataAvailable c conn enc).sinkLog = conn.sinkLog := by
  obtain ⟨hE, hC, hP, hM⟩ := hS
  have hdec : c.decodeOne enc = DecodeResult.pdu v enc.length := by
    have h0 := hEnc []
    rwa [List.append_nil] at h0
  have hext : extractPdus c (conn.bufQ ++ enc) = ⟨[v], [], false⟩ := by
    rw [hBuf, List.nil_append,
      extractPdus_pdu c hE hC enc v enc.length hdec, List.drop_length]
    rfl
  have hstep : dispatchPdus conn [v] =
      { conn with
          commandQ := restQ,
          sentCount := conn.sentCount - 1,
          fulfilled := conn.fulfilled ++
            [(qc.id, Except.error (WatchmanError.responseError v))] } := by
    have h1 : dispatchPdus conn [v] = dispatchPdu conn v := rfl
    rw [h1]
    simp [dispatchPdu, hHs, hQ, watchmanResponseToTry, hErr]
  have h2 : readDataAvailable c conn enc = { dispatchPdus conn [v] with bufQ := [] } := by
    rw [read_ok_eq c conn enc hAlive (by rw [hext]), hext]
  have hbroken : conn.broken = false := by
    unfold isDead at hAlive
    exact (Bool.or_eq_false_iff.mp hAlive).2
  rw [h2, hstep]
  exact ⟨rfl, rfl, hbroken, rfl, rfl⟩

/-- Witness for C6: a connection with two pending commands receiving the
error-marked response completes only command 0 with the protocol error
carrying the payload, keeping command 1 pending and the connection
alive. -/
theorem error_response_completes_only_head_witness :
    (readDataAvailable lengthCodec busyConn (frame [1])).fulfilled =
      [(0, Except.error (WatchmanError.responseError errResponse))] ∧
    (readDataAvailable lengthCodec busyConn (frame [1])).commandQ =
      [⟨1, Wdyn.str "get-sockname"⟩] ∧
    (readDataAvailable lengthCodec busyConn (frame [1])).broken = false ∧
    (readDataAvailable lengthCodec busyConn (frame [1])).sinkLog = [] := by
  have h := error_response_completes_only_head lengthCodec lengthCodec_streaming busyConn
    ⟨0, Wdyn.str "watch-list"⟩ [⟨1, Wdyn.str "get-sockname"⟩] errResponse (frame [1])
    rfl rfl rfl rfl (frame_decodesTo [1] errResponse rfl) rfl
  exact ⟨by rw [h.1]; rfl, h.2.1, h.2.2.1, by rw [h.2.2.2.2]; rfl⟩

end Watchman



